import Mathlib

/-!
Verification development for the VisualArt drawing-evaluation repository.

The repository's evaluation core (per-color masks, distance heatmaps built
by multi-source relaxation, the 10x10 error grid with top-5 aggregation,
and the Observation orchestrator) is documented in the repository's spec
and README files; the frontend TypeScript glue (undo/redo history,
pixel-coordinate extraction, streaming-evaluation hooks) is embedded from
its TypeScript source.  Definitions below keep the source names where Lean
allows it.
-/

namespace VisualArt

/-- Maximum representable 16-bit unsigned distance: heatmap cells are u16
and are capped at this value when no seed exists. -/
def CAP : ℕ := 65535

/-- A cell of a `w × h` raster grid, addressed as (column, row). -/
abbrev Cell (w h : ℕ) := Fin w × Fin h

/-- Boolean mask raster per (Canvas, ColorKey). -/
abbrev Mask (w h : ℕ) := Cell w h → Bool

/-- 8-connected adjacency between two distinct grid cells: both coordinate
differences are at most 1 (the spec recommends 8-connectivity for visual
symmetry). -/
def Adj {w h : ℕ} (a b : Cell w h) : Prop :=
  a ≠ b ∧ ((a.1 : ℤ) - (b.1 : ℤ)).natAbs ≤ 1 ∧ ((a.2 : ℤ) - (b.2 : ℤ)).natAbs ≤ 1

instance {w h : ℕ} (a b : Cell w h) : Decidable (Adj a b) := by
  unfold Adj; infer_instance

lemma Adj.symm {w h : ℕ} {a b : Cell w h} (hab : Adj a b) : Adj b a := by
  obtain ⟨hne, h1, h2⟩ := hab
  refine ⟨fun hba => hne hba.symm, ?_, ?_⟩ <;> omega

/-- The 8-connected neighbourhood of a cell. -/
def neighbors {w h : ℕ} (c : Cell w h) : Finset (Cell w h) :=
  Finset.univ.filter (fun d => Adj c d)

lemma mem_neighbors {w h : ℕ} {c d : Cell w h} : d ∈ neighbors c ↔ Adj c d := by
  simp [neighbors]

/-- Modelled from the spec: one synchronous relaxation step of the
multi-source distance transform (the heatmap component itself lives in the
Rust library, which is absent from the source tree; only its README,
design spec and mock callers are present).  Each cell records
`min(existing, neighbor + 1)`, i.e. a distance is lowered only where a
strictly smaller value propagates in from a neighbour. -/
def relaxStep {w h : ℕ} (f : Cell w h → ℕ) : Cell w h → ℕ :=
  fun c => (neighbors c).fold min (f c) (fun d => f d + 1)

lemma relaxStep_le {w h : ℕ} (f : Cell w h → ℕ) (c : Cell w h) :
    relaxStep f c ≤ f c :=
  (Finset.fold_min_le _).2 (Or.inl le_rfl)

lemma relaxStep_le_nbr {w h : ℕ} (f : Cell w h → ℕ) {c d : Cell w h}
    (hd : d ∈ neighbors c) : relaxStep f c ≤ f d + 1 :=
  (Finset.fold_min_le _).2 (Or.inr ⟨d, hd, le_rfl⟩)

lemma relaxStep_mono {w h : ℕ} {f g : Cell w h → ℕ} (hfg : ∀ c, f c ≤ g c)
    (c : Cell w h) : relaxStep f c ≤ relaxStep g c :=
  (Finset.le_fold_min _).2 ⟨le_trans (relaxStep_le f c) (hfg c),
    fun d hd => le_trans (relaxStep_le_nbr f hd) (Nat.succ_le_succ (hfg d))⟩

lemma iterate_relax_le {w h : ℕ} (f : Cell w h → ℕ) (t : ℕ) (c : Cell w h) :
    relaxStep^[t] f c ≤ f c := by
  induction t with
  | zero => exact le_rfl
  | succ n ih =>
      rw [Function.iterate_succ_apply']
      exact le_trans (relaxStep_le _ c) ih

lemma iterate_relax_mono {w h : ℕ} (t : ℕ) :
    ∀ {f g : Cell w h → ℕ}, (∀ c, f c ≤ g c) →
      ∀ c, relaxStep^[t] f c ≤ relaxStep^[t] g c := by
  induction t with
  | zero => intro f g hfg c; exact hfg c
  | succ n ih =>
      intro f g hfg c
      rw [Function.iterate_succ_apply, Function.iterate_succ_apply]
      exact ih (fun d => relaxStep_mono hfg d) c

/-- A relaxation fixpoint: nothing strictly decreases any more, i.e. the
frontier of the breadth-first propagation is empty. -/
def IsRelaxFix {w h : ℕ} (f : Cell w h → ℕ) : Prop := relaxStep f = f

lemma iterate_of_fix {w h : ℕ} {f : Cell w h → ℕ} (hf : IsRelaxFix f) (t : ℕ) :
    relaxStep^[t] f = f := by
  induction t with
  | zero => rfl
  | succ n ih => rw [Function.iterate_succ_apply, hf, ih]

/-- Total of all recorded distances; the termination measure of the
relaxation. -/
def sumv {w h : ℕ} (f : Cell w h → ℕ) : ℕ := ∑ c : Cell w h, f c

lemma sumv_lt_of_not_fix {w h : ℕ} {f : Cell w h → ℕ} (hf : ¬ IsRelaxFix f) :
    sumv (relaxStep f) < sumv f := by
  have hne : ∃ c, relaxStep f c ≠ f c := by
    by_contra hcon
    push_neg at hcon
    exact hf (funext hcon)
  obtain ⟨c, hc⟩ := hne
  exact Finset.sum_lt_sum (fun i _ => relaxStep_le f i)
    ⟨c, Finset.mem_univ c, lt_of_le_of_ne (relaxStep_le f c) hc⟩

lemma exists_fix_le {w h : ℕ} :
    ∀ (N : ℕ) (f : Cell w h → ℕ), sumv f ≤ N →
      ∃ j ≤ N, IsRelaxFix (relaxStep^[j] f) := by
  intro N
  induction N with
  | zero =>
      intro f hf
      refine ⟨0, le_rfl, funext fun c => ?_⟩
      have hzero : f c = 0 := by
        have := Finset.sum_eq_zero_iff.1 (Nat.le_zero.1 hf) c (Finset.mem_univ c)
        exact this
      simpa [hzero] using Nat.le_zero.1 (le_trans (relaxStep_le f c) hzero.le)
  | succ N ih =>
      intro f hf
      by_cases hfix : IsRelaxFix f
      · exact ⟨0, Nat.zero_le _, hfix⟩
      · have hlt : sumv (relaxStep f) ≤ N := by
          have := sumv_lt_of_not_fix hfix
          omega
        obtain ⟨j, hj, hfixj⟩ := ih (relaxStep f) hlt
        refine ⟨j + 1, Nat.succ_le_succ hj, ?_⟩
        rwa [Function.iterate_succ_apply]

lemma iterate_eq_of_fix {w h : ℕ} {f : Cell w h → ℕ} {j : ℕ}
    (hfix : IsRelaxFix (relaxStep^[j] f)) {K : ℕ} (hK : j ≤ K) :
    relaxStep^[K] f = relaxStep^[j] f := by
  obtain ⟨t, rfl⟩ : ∃ t, K = t + j := ⟨K - j, by omega⟩
  rw [Function.iterate_add_apply]
  exact iterate_of_fix hfix t

/-- Relaxation fuel sufficient to reach the fixpoint from any state whose
values are bounded by `CAP`: the measure `sumv` starts at most
`w * h * CAP` and strictly decreases until the fixpoint is reached. -/
def relaxFuel (w h : ℕ) : ℕ := w * h * CAP

lemma sumv_le_fuel {w h : ℕ} {f : Cell w h → ℕ} (hf : ∀ c, f c ≤ CAP) :
    sumv f ≤ relaxFuel w h := by
  have hcard : (Finset.univ : Finset (Cell w h)).card = w * h := by
    simp [Finset.card_univ]
  calc sumv f ≤ ∑ _c : Cell w h, CAP := Finset.sum_le_sum (fun i _ => hf i)
    _ = (Finset.univ : Finset (Cell w h)).card * CAP := by
        rw [Finset.sum_const, smul_eq_mul]
    _ = relaxFuel w h := by rw [hcard]; rfl

lemma iterate_fuel_stable {w h : ℕ} {f : Cell w h → ℕ} (hf : ∀ c, f c ≤ CAP)
    {K : ℕ} (hK : relaxFuel w h ≤ K) :
    relaxStep^[K] f = relaxStep^[relaxFuel w h] f := by
  obtain ⟨j, hj, hfix⟩ := exists_fix_le (relaxFuel w h) f (sumv_le_fuel hf)
  rw [iterate_eq_of_fix hfix (le_trans hj hK), iterate_eq_of_fix hfix hj]

/-- Modelled from the spec: the initial state of the full build — every
masked cell seeded at distance 0, every other cell at the u16 cap. -/
def initHeat {w h : ℕ} (m : Mask w h) : Cell w h → ℕ :=
  fun c => if m c then 0 else CAP

/-- Modelled from the spec: the full multi-source distance-transform build
of a Heatmap (the Rust implementation is absent from the source tree);
relaxation is run to its fixpoint, which `relaxFuel` steps always reach. -/
def heatmapFull {w h : ℕ} (m : Mask w h) : Cell w h → ℕ :=
  relaxStep^[relaxFuel w h] (initHeat m)

/-- Re-seed an existing heatmap with newly masked cells at distance 0. -/
def reseed {w h : ℕ} (f : Cell w h → ℕ) (s : Mask w h) : Cell w h → ℕ :=
  fun c => if s c then 0 else f c

/-- Modelled from the spec: the incremental add path — re-seed the frontier
with just the newly masked cells at distance 0 and relax, lowering a
recorded distance only where it strictly decreases. -/
def incrementalAdd {w h : ℕ} (f : Cell w h → ℕ) (s : Mask w h) : Cell w h → ℕ :=
  relaxStep^[relaxFuel w h] (reseed f s)

/-- Pointwise union of two masks (the mask state after add-only strokes). -/
def maskUnion {w h : ℕ} (m s : Mask w h) : Mask w h :=
  fun c => m c || s c

lemma initHeat_le_cap {w h : ℕ} (m : Mask w h) (c : Cell w h) :
    initHeat m c ≤ CAP := by
  unfold initHeat; split <;> simp

lemma heatmapFull_le_init {w h : ℕ} (m : Mask w h) (c : Cell w h) :
    heatmapFull m c ≤ initHeat m c :=
  iterate_relax_le _ _ c

lemma heatmapFull_le_cap {w h : ℕ} (m : Mask w h) (c : Cell w h) :
    heatmapFull m c ≤ CAP :=
  le_trans (heatmapFull_le_init m c) (initHeat_le_cap m c)

lemma heatmapFull_fix {w h : ℕ} (m : Mask w h) : IsRelaxFix (heatmapFull m) := by
  unfold IsRelaxFix heatmapFull
  rw [← Function.iterate_succ_apply' relaxStep]
  exact iterate_fuel_stable (initHeat_le_cap m) (Nat.le_succ _)

lemma heatmapFull_zero {w h : ℕ} {m : Mask w h} {c : Cell w h}
    (hm : m c = true) : heatmapFull m c = 0 := by
  have := heatmapFull_le_init m c
  rw [initHeat, if_pos hm] at this
  exact Nat.le_zero.1 this

lemma initHeat_union_le {w h : ℕ} (m s : Mask w h) (c : Cell w h) :
    initHeat (maskUnion m s) c ≤ initHeat m c := by
  unfold initHeat maskUnion
  cases hm : m c <;> cases hs : s c <;> simp [hm, hs]

/-- Incremental add agrees with the full rebuild: seeding the new cells into
the already-built heatmap and relaxing reaches exactly the heatmap rebuilt
from the union mask. -/
lemma incrementalAdd_eq_full {w h : ℕ} (m s : Mask w h) :
    incrementalAdd (heatmapFull m) s = heatmapFull (maskUnion m s) := by
  have hfull_le : ∀ c, heatmapFull (maskUnion m s) c ≤ heatmapFull m c :=
    fun c => iterate_relax_mono _ (initHeat_union_le m s) c
  have hlow : ∀ c, heatmapFull (maskUnion m s) c ≤ reseed (heatmapFull m) s c := by
    intro c
    unfold reseed
    split
    · rename_i hs
      have hu : maskUnion m s c = true := by simp [maskUnion, hs]
      exact (heatmapFull_zero hu).le
    · exact hfull_le c
  have hup : ∀ c, reseed (heatmapFull m) s c ≤ initHeat (maskUnion m s) c := by
    intro c
    unfold reseed initHeat maskUnion
    cases hs : s c
    · cases hm : m c
      · simpa [hs, hm] using heatmapFull_le_cap m c
      · simpa [hs, hm] using (heatmapFull_zero hm).le
    · simp [hs]
  funext c
  apply le_antisymm
  · exact iterate_relax_mono _ hup c
  · have hmono := iterate_relax_mono (relaxFuel w h) hlow c
    rwa [iterate_of_fix (heatmapFull_fix (maskUnion m s))] at hmono

/-- A sequence of incremental add-only updates, applied in arrival order. -/
def applyIncremental {w h : ℕ} (f : Cell w h → ℕ) (us : List (Mask w h)) :
    Cell w h → ℕ :=
  us.foldl incrementalAdd f

/-- The final mask state after a sequence of add-only stroke updates. -/
def finalMask {w h : ℕ} (m : Mask w h) (us : List (Mask w h)) : Mask w h :=
  us.foldl maskUnion m

/-- A 4-channel 8-bit color (each channel ranges over 0..255). -/
structure RGBA where
  r : ℕ
  g : ℕ
  b : ℕ
  a : ℕ
deriving DecidableEq

/-- A Canvas buffer: fixed-size 2D raster of 4-channel color. -/
abbrev Canvas (w h : ℕ) := Cell w h → RGBA

/-- Modelled from the spec: quantize one 8-bit channel into `K`
posterization buckets (the mask-extraction code lives in the absent Rust
library). -/
def quantChannel (K v : ℕ) : ℕ := v * K / 256

/-- Quantize all four channels of a color. -/
def quantColor (K : ℕ) (c : RGBA) : ℕ × ℕ × ℕ × ℕ :=
  (quantChannel K c.r, quantChannel K c.g, quantChannel K c.b, quantChannel K c.a)

/-- Modelled from the spec: color-mask extraction — a pixel belongs to the
mask of a ColorKey iff its quantized color equals the quantized key. -/
def maskOf {w h : ℕ} (canvas : Canvas w h) (key : RGBA) (K : ℕ) : Mask w h :=
  fun c => decide (quantColor K (canvas c) = quantColor K key)

lemma fix_gap {w h : ℕ} {f : Cell w h → ℕ} (hf : IsRelaxFix f) {a b : Cell w h}
    (hab : Adj a b) : f a ≤ f b + 1 := by
  have hb : b ∈ neighbors a := mem_neighbors.2 hab
  calc f a = relaxStep f a := (congrFun hf a).symm
    _ ≤ f b + 1 := relaxStep_le_nbr f hb

/-- C1: for every reference mask and every sequence of add-only stroke
updates, applying the updates incrementally (re-seeding the frontier with
just the newly masked cells at distance 0 and relaxing only where a
recorded distance strictly decreases) produces, cell for cell, the same
Heatmap as a single full rebuild seeded from the final mask state. -/
theorem incremental_eq_full_rebuild {w h : ℕ} (m : Mask w h)
    (us : List (Mask w h)) :
    applyIncremental (heatmapFull m) us = heatmapFull (finalMask m us) := by
  induction us generalizing m with
  | nil => rfl
  | cons u us ih =>
      show applyIncremental (incrementalAdd (heatmapFull m) u) us
        = heatmapFull (finalMask (maskUnion m u) us)
      rw [incrementalAdd_eq_full]
      exact ih (maskUnion m u)

/-- C2: for every Heatmap produced for a (Canvas, ColorKey) pair with a
non-empty Mask, every masked cell has heatmap value 0, and for any two
adjacent cells the absolute difference of heatmap values is at most 1. -/
theorem heatmap_invariants {w h : ℕ} (canvas : Canvas w h) (key : RGBA)
    (K : ℕ) (hne : ∃ c, maskOf canvas key K c = true) :
    (∀ c, maskOf canvas key K c = true →
      heatmapFull (maskOf canvas key K) c = 0) ∧
    (∀ a b : Cell w h, Adj a b →
      |(heatmapFull (maskOf canvas key K) a : ℤ) -
        (heatmapFull (maskOf canvas key K) b : ℤ)| ≤ 1) := by
  obtain ⟨c₀, _⟩ := hne
  refine ⟨fun c hc => heatmapFull_zero hc, fun a b hab => ?_⟩
  have h1 := fix_gap (heatmapFull_fix (maskOf canvas key K)) hab
  have h2 := fix_gap (heatmapFull_fix (maskOf canvas key K)) hab.symm
  rw [abs_le]
  omega

/-- Concrete 1×1 canvas holding a single opaque black pixel. -/
def witnessCanvas : Canvas 1 1 := fun _ => ⟨0, 0, 0, 255⟩

/-- The color key matching the witness canvas pixel. -/
def witnessKey : RGBA := ⟨0, 0, 0, 255⟩

/-- Witness for `heatmap_invariants`: the 1×1 black canvas evaluated
against the black key has a non-empty mask, and the invariants hold. -/
theorem heatmap_invariants_witness :
    (∃ c, maskOf witnessCanvas witnessKey 10 c = true) ∧
    ((∀ c, maskOf witnessCanvas witnessKey 10 c = true →
        heatmapFull (maskOf witnessCanvas witnessKey 10) c = 0) ∧
      (∀ a b : Cell 1 1, Adj a b →
        |(heatmapFull (maskOf witnessCanvas witnessKey 10) a : ℤ) -
          (heatmapFull (maskOf witnessCanvas witnessKey 10) b : ℤ)| ≤ 1)) :=
  ⟨by decide, heatmap_invariants witnessCanvas witnessKey 10 (by decide)⟩

/-- A snapshot of the drawing buffer: a cell either holds an inked color or
is un-inked (`none`). -/
abbrev Snapshot (w h : ℕ) := Cell w h → Option RGBA

/-- One changed pixel reported by the diff engine:
`{x, y, previousColor|none, newColor|none}`. -/
structure DiffEntry (w h : ℕ) where
  x : Fin w
  y : Fin h
  previousColor : Option RGBA
  newColor : Option RGBA
deriving DecidableEq

/-- Every cell of a `w × h` grid, in row-scan order. -/
def allCells (w h : ℕ) : List (Cell w h) :=
  (List.finRange w).flatMap (fun i => (List.finRange h).map (fun j => (i, j)))

lemma mem_allCells {w h : ℕ} (c : Cell w h) : c ∈ allCells w h := by
  obtain ⟨i, j⟩ := c
  simp [allCells]

/-- Modelled from the spec: the diff engine — a direct element-wise
comparison of two equal-sized drawing snapshots, listing exactly the cells
whose raw color differs, each with its previous and new color (the engine
itself lives in the absent Rust library; the design spec describes it as a
per-cell comparison producing `{x, y, prevColor, newColor}`). -/
def imageDiff {w h : ℕ} (prev next : Snapshot w h) : List (DiffEntry w h) :=
  ((allCells w h).filter (fun c => decide (prev c ≠ next c))).map
    (fun c => ⟨c.1, c.2, prev c, next c⟩)

/-- C3: the diff engine outputs exactly the set of cells whose raw color
differs between the two equal-sized snapshots, each as
`{x, y, previousColor|none, newColor|none}`; in particular a pixel that was
inked before and is un-inked in the new snapshot appears in the diff with
its previous color. -/
theorem diff_engine_exact {w h : ℕ} (prev next : Snapshot w h) :
    (∀ (x : Fin w) (y : Fin h) (pc nc : Option RGBA),
      (⟨x, y, pc, nc⟩ : DiffEntry w h) ∈ imageDiff prev next ↔
        (prev (x, y) ≠ next (x, y) ∧ pc = prev (x, y) ∧ nc = next (x, y))) ∧
    (∀ (c : Cell w h) (col : RGBA), prev c = some col → next c = none →
      (⟨c.1, c.2, some col, none⟩ : DiffEntry w h) ∈ imageDiff prev next) := by
  have hmain : ∀ (x : Fin w) (y : Fin h) (pc nc : Option RGBA),
      (⟨x, y, pc, nc⟩ : DiffEntry w h) ∈ imageDiff prev next ↔
        (prev (x, y) ≠ next (x, y) ∧ pc = prev (x, y) ∧ nc = next (x, y)) := by
    intro x y pc nc
    constructor
    · intro hmem
      simp only [imageDiff, List.mem_map, List.mem_filter, decide_eq_true_eq]
        at hmem
      obtain ⟨c', ⟨_, hne⟩, heq⟩ := hmem
      obtain ⟨i, j⟩ := c'
      obtain ⟨hx, hy, hp, hn⟩ := DiffEntry.mk.injEq _ _ _ _ _ _ _ _ ▸ heq
      subst hx; subst hy
      exact ⟨hne, hp.symm, hn.symm⟩
    · rintro ⟨hne, rfl, rfl⟩
      simp only [imageDiff, List.mem_map, List.mem_filter, decide_eq_true_eq]
      exact ⟨(x, y), ⟨mem_allCells _, hne⟩, rfl⟩
  refine ⟨hmain, fun c col hp hn => ?_⟩
  obtain ⟨i, j⟩ := c
  exact (hmain i j (some col) none).2 ⟨by rw [hp, hn]; simp, hp.symm, hn.symm⟩

/-- Concrete 1×1 previous snapshot: the single pixel is inked black. -/
def witnessPrevSnap : Snapshot 1 1 := fun _ => some ⟨0, 0, 0, 255⟩

/-- Concrete 1×1 new snapshot: the single pixel has been erased. -/
def witnessNextSnap : Snapshot 1 1 := fun _ => none

/-- Witness for `diff_engine_exact`: the erased pixel of the concrete
snapshots appears in the diff with its previous color. -/
theorem diff_engine_exact_witness :
    witnessPrevSnap ((0 : Fin 1), (0 : Fin 1)) = some ⟨0, 0, 0, 255⟩ ∧
    witnessNextSnap ((0 : Fin 1), (0 : Fin 1)) = none ∧
    (⟨0, 0, some ⟨0, 0, 0, 255⟩, none⟩ : DiffEntry 1 1) ∈
      imageDiff witnessPrevSnap witnessNextSnap :=
  ⟨rfl, rfl,
    (diff_engine_exact witnessPrevSnap witnessNextSnap).2
      ((0 : Fin 1), (0 : Fin 1)) ⟨0, 0, 0, 255⟩ rfl rfl⟩

/-- Block index of a cell for the fixed 10×10 error grid: each block is a
contiguous `(width/10) × (height/10)` region. -/
def blockIndex {w h : ℕ} (c : Cell w h) : ℕ × ℕ :=
  ((c.1 : ℕ) / (w / 10), (c.2 : ℕ) / (h / 10))

/-- The cells belonging to one block of the 10×10 error grid. -/
def blockCells (w h : ℕ) (b : Fin 10 × Fin 10) : List (Cell w h) :=
  (allCells w h).filter (fun c => decide (blockIndex c = ((b.1 : ℕ), (b.2 : ℕ))))

/-- Modelled from the spec: the two-sided pointwise error at a cell — the
drawing-side heatmap value where the reference is masked (how far the
nearest drawn ink is from where reference ink should be) plus the symmetric
reference-side term at drawing-masked cells.  The two-sided combination is
the fixed design choice of this model. -/
def pointError {w h : ℕ} (refMask drawMask : Mask w h)
    (refHeat drawHeat : Cell w h → ℕ) (c : Cell w h) : ℕ :=
  (if refMask c then drawHeat c else 0) + (if drawMask c then refHeat c else 0)

/-- Average of the five largest values of a list (fewer than five values
are padded by nothing: the sum of the top `min 5 n` values is divided
by 5). -/
def top5avg (l : List ℚ) : ℚ :=
  ((l.insertionSort (· ≥ ·)).take 5).sum / 5

/-- Modelled from the spec: the fixed maximum-expected-error divisor used
to normalize block errors to a 0–100 percentage; the capped u16 distance
is the worst representable pointwise error. -/
def maxExpectedError : ℚ := (CAP : ℚ)

/-- Modelled from the spec: the 10×10 ErrorGrid — within each block, the
five largest pointwise errors are averaged and normalized to a percentage
(the error-grid code lives in the absent Rust library). -/
def errorGridOf {w h : ℕ} (refMask drawMask : Mask w h)
    (refHeat drawHeat : Cell w h → ℕ) : Fin 10 × Fin 10 → ℚ :=
  fun b =>
    100 * top5avg ((blockCells w h b).map
      (fun c => (pointError refMask drawMask refHeat drawHeat c : ℚ)))
      / maxExpectedError

/-- Every block of the 10×10 error grid. -/
def allBlocks : List (Fin 10 × Fin 10) :=
  (List.finRange 10).flatMap (fun i => (List.finRange 10).map (fun j => (i, j)))

/-- The whole-grid headline statistic: the average of the five largest cell
values across the entire 10×10 ErrorGrid. -/
def wholeGridTop5 (grid : Fin 10 × Fin 10 → ℚ) : ℚ :=
  top5avg (allBlocks.map grid)

/-- Modelled from the spec: evaluating a drawing against a reference for
one ColorKey — masks are extracted from both canvases, heatmaps are fully
built, the ErrorGrid is reduced, and the whole-grid top-5 error is the
headline statistic. -/
def evaluateTop5 {w h : ℕ} (reference drawing : Canvas w h) (key : RGBA)
    (K : ℕ) : ℚ :=
  wholeGridTop5 (errorGridOf (maskOf reference key K) (maskOf drawing key K)
    (heatmapFull (maskOf reference key K)) (heatmapFull (maskOf drawing key K)))

lemma top5avg_of_zero {l : List ℚ} (hl : ∀ x ∈ l, x = 0) : top5avg l = 0 := by
  unfold top5avg
  have hz : ∀ x ∈ (l.insertionSort (· ≥ ·)).take 5, x = 0 := fun x hx =>
    hl x ((List.perm_insertionSort _ l).mem_iff.1 (List.mem_of_mem_take hx))
  rw [List.sum_eq_zero hz]
  norm_num

lemma pointError_self {w h : ℕ} (m : Mask w h) (c : Cell w h) :
    pointError m m (heatmapFull m) (heatmapFull m) c = 0 := by
  unfold pointError
  cases hm : m c
  · simp [hm]
  · simp [hm, heatmapFull_zero hm]

/-- C5: a drawing pixel-identical to the reference yields a whole-grid
top-5 error of 0, for every reference image and color key (in particular
when reference and drawing both ink only the same single pixel). -/
theorem identical_drawing_top5_zero {w h : ℕ} (reference : Canvas w h)
    (key : RGBA) (K : ℕ) : evaluateTop5 reference reference key K = 0 := by
  unfold evaluateTop5 wholeGridTop5
  apply top5avg_of_zero
  intro x hx
  obtain ⟨b, _, rfl⟩ := List.mem_map.1 hx
  unfold errorGridOf
  have hin : top5avg ((blockCells w h b).map
      (fun c => (pointError (maskOf reference key K) (maskOf reference key K)
        (heatmapFull (maskOf reference key K))
        (heatmapFull (maskOf reference key K)) c : ℚ))) = 0 := by
    apply top5avg_of_zero
    intro y hy
    obtain ⟨c, _, rfl⟩ := List.mem_map.1 hy
    rw [pointError_self]
    norm_num
  rw [hin]
  norm_num

/-- The Observation aggregate: reference and drawing buffers, one heatmap
per buffer for the evaluated color, and the derived 10×10 ErrorGrid. -/
structure Observation (w h : ℕ) where
  reference : Canvas w h
  drawing : Canvas w h
  referenceHeatmap : Cell w h → ℕ
  drawingHeatmap : Cell w h → ℕ
  errorGrid : Fin 10 × Fin 10 → ℚ

/-- A well-formed Observation whose derived state (heatmaps, error grid)
is exactly the one rebuilt from its buffers. -/
def mkObservation {w h : ℕ} (reference drawing : Canvas w h) (key : RGBA)
    (K : ℕ) : Observation w h :=
  { reference := reference
    drawing := drawing
    referenceHeatmap := heatmapFull (maskOf reference key K)
    drawingHeatmap := heatmapFull (maskOf drawing key K)
    errorGrid := errorGridOf (maskOf reference key K) (maskOf drawing key K)
      (heatmapFull (maskOf reference key K))
      (heatmapFull (maskOf drawing key K)) }

/-- Cells that became masked in the new drawing (the incremental seeds). -/
def addedMask {w h : ℕ} (old new : Mask w h) : Mask w h :=
  fun c => new c && !(old c)

/-- Cells whose mask bit was removed by the new drawing. -/
def removedMask {w h : ℕ} (old new : Mask w h) : Mask w h :=
  fun c => old c && !(new c)

/-- The changed pixels between two drawing buffers (the diff the update
path starts from). -/
def changedPixels {w h : ℕ} (old new : Canvas w h) : List (Cell w h) :=
  (allCells w h).filter (fun c => decide (old c ≠ new c))

/-- Modelled from the spec: `updateDrawing` — diff against the previous
drawing snapshot, then apply the incremental add path for newly masked
cells; if any mask bit was removed, this model conservatively falls back
to the full rebuild (the spec's bounded regional rebuild is an
optimization with exactly that fallback). -/
def updateDrawing {w h : ℕ} (o : Observation w h) (key : RGBA) (K : ℕ)
    (newDrawing : Canvas w h) : Observation w h :=
  if ∃ c, removedMask (maskOf o.drawing key K) (maskOf newDrawing key K) c
      = true then
    { o with drawing := newDrawing
             drawingHeatmap := heatmapFull (maskOf newDrawing key K)
             errorGrid := errorGridOf (maskOf o.reference key K)
               (maskOf newDrawing key K) o.referenceHeatmap
               (heatmapFull (maskOf newDrawing key K)) }
  else
    { o with drawing := newDrawing
             drawingHeatmap := incrementalAdd o.drawingHeatmap
               (addedMask (maskOf o.drawing key K) (maskOf newDrawing key K))
             errorGrid := errorGridOf (maskOf o.reference key K)
               (maskOf newDrawing key K) o.referenceHeatmap
               (incrementalAdd o.drawingHeatmap
                 (addedMask (maskOf o.drawing key K)
                   (maskOf newDrawing key K))) }

lemma incrementalAdd_empty {w h : ℕ} (m : Mask w h) :
    incrementalAdd (heatmapFull m) (addedMask m m) = heatmapFull m := by
  unfold incrementalAdd
  have hres : reseed (heatmapFull m) (addedMask m m) = heatmapFull m := by
    funext c
    simp [reseed, addedMask]
  rw [hres]
  exact iterate_of_fix (heatmapFull_fix m) _

/-- C4: the drawing-update operation applied to a buffer identical to the
current drawing is a no-op on derived state — the diff yields zero changed
pixels, and no Heatmap cell and no ErrorGrid cell changes value. -/
theorem update_identical_noop {w h : ℕ} (reference drawing : Canvas w h)
    (key : RGBA) (K : ℕ) :
    changedPixels drawing drawing = [] ∧
    updateDrawing (mkObservation reference drawing key K) key K drawing
      = mkObservation reference drawing key K := by
  constructor
  · simp [changedPixels]
  · unfold updateDrawing
    have hrem : ¬ ∃ c : Cell w h,
        removedMask (maskOf drawing key K) (maskOf drawing key K) c = true := by
      rintro ⟨c, hc⟩
      simp [removedMask] at hc
    rw [if_neg ?_]
    · show ({ mkObservation reference drawing key K with
          drawing := drawing
          drawingHeatmap := _
          errorGrid := _ } : Observation w h) = _
      rw [show (mkObservation reference drawing key K).drawingHeatmap
          = heatmapFull (maskOf drawing key K) from rfl,
        show (mkObservation reference drawing key K).drawing = drawing from rfl,
        incrementalAdd_empty]
      rfl
    · exact hrem

/-- Modelled from the spec: `compute_drawing_speed` from the fast-utils
Rust library (only its README/API reference is present in the source
tree) — the pixel count divided by the duration expressed in seconds;
an `end_time` of 0 means the observation is still active and the ambient
current time is used instead. -/
def compute_drawing_speed (pixel_count : ℕ) (start_time end_time now : ℤ) :
    ℚ :=
  let effectiveEnd : ℤ := if end_time = 0 then now else end_time
  let durationSeconds : ℚ := ((effectiveEnd - start_time : ℤ) : ℚ) / 1000
  (pixel_count : ℚ) / durationSeconds

/-- C6: for every observation with a set start and end time, the reported
drawing speed equals the masked pixel count divided by the duration
`endTime - startTime` in seconds; e.g. 1000 masked pixels over a 2000 ms
duration gives 500 pixels per second. -/
theorem drawing_speed_correct (pixel_count : ℕ) (start_time end_time now : ℤ)
    (hset : end_time ≠ 0) :
    compute_drawing_speed pixel_count start_time end_time now
      = (pixel_count : ℚ) / (((end_time - start_time : ℤ) : ℚ) / 1000) ∧
    compute_drawing_speed 1000 1000 3000 now = 500 := by
  constructor
  · unfold compute_drawing_speed
    rw [if_neg hset]
  · unfold compute_drawing_speed
    norm_num

/-- Witness for `drawing_speed_correct` at the README's example input:
1000 pixels drawn between timestamps 1000 ms and 3000 ms. -/
theorem drawing_speed_correct_witness :
    (3000 : ℤ) ≠ 0 ∧
    (compute_drawing_speed 1000 1000 3000 0
        = (1000 : ℚ) / (((3000 - 1000 : ℤ) : ℚ) / 1000) ∧
      compute_drawing_speed 1000 1000 3000 0 = 500) :=
  ⟨by decide, drawing_speed_correct 1000 1000 3000 0 (by decide)⟩

/-- An image buffer with runtime dimensions, as consumed at the interface
boundary where dimension errors are possible. -/
structure ImageBuffer where
  width : ℕ
  height : ℕ
  pixel : ℕ → ℕ → RGBA

/-- Evaluation configuration: the color keys to evaluate and the
posterization bucket count (an integer, so that the non-positive
configuration error is expressible). -/
structure Config where
  colorToEvaluate : List RGBA
  posterization : ℤ

/-- The spec's taxonomy of fatal configuration and state errors. -/
inductive EvalError where
  | noReference
  | dimensionMismatch
  | dimensionNotDivisibleBy10
  | unrecognizedColorKey
  | nonPositivePosterization
  | notStarted
deriving DecidableEq

/-- The Observation state seen by the validation layer: buffers, config,
session timers and the evaluation history. -/
structure ObservationState where
  reference : Option ImageBuffer
  drawing : Option ImageBuffer
  config : Config
  startTime : Option ℤ
  endTime : Option ℤ
  evaluationHistory : List (List RGBA)

/-- Modelled from the spec: the validation boundary of `updateDrawing` —
mutating the drawing before a reference is set is a state error, and a
reference/drawing dimension mismatch is a configuration error; both are
fatal and leave the Observation unchanged, otherwise the new buffer is
swapped in. -/
def updateDrawingChecked (o : ObservationState) (d : ImageBuffer) :
    ObservationState × Option EvalError :=
  match o.reference with
  | none => (o, some .noReference)
  | some ref =>
      if d.width ≠ ref.width ∨ d.height ≠ ref.height then
        (o, some .dimensionMismatch)
      else
        ({ o with drawing := some d }, none)

/-- Modelled from the spec: the validation boundary of `updateConfig` — a
non-positive posterization value is a fatal configuration error. -/
def updateConfigChecked (o : ObservationState) (c : Config) :
    ObservationState × Option EvalError :=
  if c.posterization ≤ 0 then
    (o, some .nonPositivePosterization)
  else
    ({ o with config := c }, none)

/-- Modelled from the spec: the validation boundary of `getEvaluation` —
requesting a color key outside the configured evaluation set is a fatal
configuration error; on success the request is recorded in the evaluation
history. -/
def getEvaluationChecked (o : ObservationState) (keys : List RGBA) :
    ObservationState × Option EvalError :=
  if ∃ k ∈ keys, k ∉ o.config.colorToEvaluate then
    (o, some .unrecognizedColorKey)
  else
    ({ o with evaluationHistory := o.evaluationHistory ++ [keys] }, none)

/-- Modelled from the spec: the validation boundary of `resetObservation` —
reference dimensions not divisible by 10 are a fatal configuration error;
on success reference, time and config are replaced atomically and derived
state is cleared. -/
def resetObservationChecked (o : ObservationState) (ref : ImageBuffer)
    (t : Option ℤ) (c : Config) : ObservationState × Option EvalError :=
  if ref.width % 10 ≠ 0 ∨ ref.height % 10 ≠ 0 then
    (o, some .dimensionNotDivisibleBy10)
  else if c.posterization ≤ 0 then
    (o, some .nonPositivePosterization)
  else
    ({ reference := some ref, drawing := none, config := c, startTime := t,
       endTime := none, evaluationHistory := [] }, none)

/-- Modelled from the spec: the validation boundary of
`finishObservation` — finishing an observation that was never started is a
fatal state error. -/
def finishObservationChecked (o : ObservationState) (t : ℤ) :
    ObservationState × Option EvalError :=
  match o.startTime with
  | none => (o, some .notStarted)
  | some _ => ({ o with endTime := some t }, none)

/-- C7: every operation that fails with a configuration error (dimension
mismatch, dimensions not divisible by 10, unrecognized color key,
non-positive posterization) or a state error surfaces the error to the
caller and leaves the Observation's prior valid state unchanged — no
partial mutation of buffers, config, timers or the evaluation history is
visible after the failing call. -/
theorem errors_surface_state_unchanged :
    (∀ (o : ObservationState) (d : ImageBuffer), o.reference = none →
      updateDrawingChecked o d = (o, some .noReference)) ∧
    (∀ (o : ObservationState) (d ref : ImageBuffer), o.reference = some ref →
      (d.width ≠ ref.width ∨ d.height ≠ ref.height) →
      updateDrawingChecked o d = (o, some .dimensionMismatch)) ∧
    (∀ (o : ObservationState) (c : Config), c.posterization ≤ 0 →
      updateConfigChecked o c = (o, some .nonPositivePosterization)) ∧
    (∀ (o : ObservationState) (keys : List RGBA) (k : RGBA), k ∈ keys →
      k ∉ o.config.colorToEvaluate →
      getEvaluationChecked o keys = (o, some .unrecognizedColorKey)) ∧
    (∀ (o : ObservationState) (ref : ImageBuffer) (t : Option ℤ) (c : Config),
      (ref.width % 10 ≠ 0 ∨ ref.height % 10 ≠ 0) →
      resetObservationChecked o ref t c = (o, some .dimensionNotDivisibleBy10)) ∧
    (∀ (o : ObservationState) (t : ℤ), o.startTime = none →
      finishObservationChecked o t = (o, some .notStarted)) := by
  refine ⟨?_, ?_, ?_, ?_, ?_, ?_⟩
  · intro o d href
    unfold updateDrawingChecked
    rw [href]
  · intro o d ref href hdim
    unfold updateDrawingChecked
    rw [href]
    exact if_pos hdim
  · intro o c hpos
    unfold updateConfigChecked
    exact if_pos hpos
  · intro o keys k hk hnot
    unfold getEvaluationChecked
    exact if_pos ⟨k, hk, hnot⟩
  · intro o ref t c hdim
    unfold resetObservationChecked
    exact if_pos hdim
  · intro o t hstart
    unfold finishObservationChecked
    rw [hstart]

/-- A concrete Observation state used to exercise the failing calls. -/
def witnessObsState : ObservationState :=
  { reference := some ⟨500, 500, fun _ _ => ⟨0, 0, 0, 255⟩⟩
    drawing := none
    config := { colorToEvaluate := [⟨0, 0, 0, 255⟩], posterization := 10 }
    startTime := none
    endTime := none
    evaluationHistory := [] }

/-- A buffer whose dimensions disagree with the witness reference. -/
def witnessBadBuffer : ImageBuffer := ⟨300, 500, fun _ _ => ⟨0, 0, 0, 255⟩⟩

/-- Witness for `errors_surface_state_unchanged`: a mismatched buffer, a
non-positive posterization, an unrecognized key, dimensions not divisible
by 10, and finishing a never-started observation all fail and leave the
concrete state unchanged. -/
theorem errors_surface_state_unchanged_witness :
    (witnessObsState.reference = some ⟨500, 500, fun _ _ => ⟨0, 0, 0, 255⟩⟩ ∧
      (witnessBadBuffer.width ≠ 500 ∨ witnessBadBuffer.height ≠ 500) ∧
      updateDrawingChecked witnessObsState witnessBadBuffer
        = (witnessObsState, some .dimensionMismatch)) ∧
    ((-3 : ℤ) ≤ 0 ∧
      updateConfigChecked witnessObsState ⟨[], -3⟩
        = (witnessObsState, some .nonPositivePosterization)) ∧
    (getEvaluationChecked witnessObsState [⟨1, 2, 3, 4⟩]
        = (witnessObsState, some .unrecognizedColorKey)) ∧
    (resetObservationChecked witnessObsState ⟨15, 20, fun _ _ => ⟨0, 0, 0, 0⟩⟩
        none ⟨[], 10⟩ = (witnessObsState, some .dimensionNotDivisibleBy10)) ∧
    (witnessObsState.startTime = none ∧
      finishObservationChecked witnessObsState 5
        = (witnessObsState, some .notStarted)) := by
  refine ⟨⟨rfl, by decide, ?_⟩, ⟨by decide, ?_⟩, ?_, ?_, ⟨rfl, ?_⟩⟩
  · exact errors_surface_state_unchanged.2.1 witnessObsState witnessBadBuffer
      ⟨500, 500, fun _ _ => ⟨0, 0, 0, 255⟩⟩ rfl (by decide)
  · exact errors_surface_state_unchanged.2.2.1 witnessObsState ⟨[], -3⟩
      (by decide)
  · exact errors_surface_state_unchanged.2.2.2.1 witnessObsState
      [⟨1, 2, 3, 4⟩] ⟨1, 2, 3, 4⟩ (by decide) (by decide)
  · exact errors_surface_state_unchanged.2.2.2.2.1 witnessObsState
      ⟨15, 20, fun _ _ => ⟨0, 0, 0, 0⟩⟩ none ⟨[], 10⟩ (by decide)
  · exact errors_surface_state_unchanged.2.2.2.2.2 witnessObsState 5 rfl

/-- The statistics section of an evaluation report. -/
structure Report where
  totalTime : ℤ
  totalPixels : ℕ
  drawingSpeed : ℚ
  top5Error : ℚ
deriving DecidableEq

/-- The number of masked pixels of a mask raster. -/
def countMask {w h : ℕ} (m : Mask w h) : ℕ :=
  (Finset.univ.filter (fun c => m c = true)).card

/-- Modelled from the spec: `getEvaluation` assembling the report
statistics — total duration, total reference-masked pixel count, drawing
speed and the whole-grid top-5 error; `now` is the ambient clock, consulted
only while the observation has no end time. -/
def getEvaluationReport {w h : ℕ} (reference drawing : Canvas w h)
    (key : RGBA) (K : ℕ) (startTime : ℤ) (endTime : Option ℤ) (now : ℤ) :
    Report :=
  let effectiveEnd : ℤ := endTime.getD now
  { totalTime := effectiveEnd - startTime
    totalPixels := countMask (maskOf reference key K)
    drawingSpeed := compute_drawing_speed (countMask (maskOf reference key K))
      startTime effectiveEnd now
    top5Error := evaluateTop5 reference drawing key K }

/-- C8: evaluation is deterministic — the report assembled for a finished
observation is a pure function of the reference, the drawing and the
configuration; in particular it does not depend on the ambient clock, so
two runs on the same inputs produce identical reports (identical top-5
error, pixel count and all other statistics). -/
theorem evaluation_deterministic {w h : ℕ} (reference drawing : Canvas w h)
    (key : RGBA) (K : ℕ) (startTime endTime : ℤ) (hend : endTime ≠ 0) :
    ∀ now₁ now₂ : ℤ,
      getEvaluationReport reference drawing key K startTime (some endTime) now₁
        = getEvaluationReport reference drawing key K startTime (some endTime)
            now₂ := by
  intro now₁ now₂
  unfold getEvaluationReport compute_drawing_speed
  simp [hend]

/-- Witness for `evaluation_deterministic`: the report of the finished 1×1
black-on-black observation is the same under two different ambient clock
readings. -/
theorem evaluation_deterministic_witness :
    (3000 : ℤ) ≠ 0 ∧
    getEvaluationReport witnessCanvas witnessCanvas witnessKey 10 1000
        (some 3000) 77
      = getEvaluationReport witnessCanvas witnessCanvas witnessKey 10 1000
          (some 3000) 4242 :=
  ⟨by decide,
    evaluation_deterministic witnessCanvas witnessCanvas witnessKey 10 1000
      3000 (by decide) 77 4242⟩

/-- The undo/redo history state of `useUndoRedo`: the current lines array
plus the undo and redo stacks, newest entry at the end as in the
TypeScript arrays. -/
structure HistoryState (α : Type) where
  current : List α
  undoStack : List (List α)
  redoStack : List (List α)
deriving DecidableEq

/-- Model of `pushToHistory` from useUndoRedo.ts: append the current state to the
undo stack (keeping only the newest `maxHistorySize` entries), clear the
redo stack and install the new state. -/
def pushToHistory {α : Type} (st : HistoryState α) (newState : List α)
    (maxHistorySize : ℕ) : HistoryState α :=
  let newStack := st.undoStack ++ [st.current]
  { current := newState
    undoStack := if maxHistorySize < newStack.length then
        newStack.drop (newStack.length - maxHistorySize)
      else newStack
    redoStack := [] }

/-- Model of `undo` from useUndoRedo.ts: with an empty undo stack do nothing;
otherwise pop the last undo entry into `current` and push the old
`current` onto the redo stack. -/
def undo {α : Type} (st : HistoryState α) : HistoryState α :=
  match st.undoStack.getLast? with
  | none => st
  | some previousState =>
      { current := previousState
        undoStack := st.undoStack.dropLast
        redoStack := st.redoStack ++ [st.current] }

/-- Model of `redo` from useUndoRedo.ts: with an empty redo stack do nothing;
otherwise pop the last redo entry into `current` and push the old
`current` onto the undo stack. -/
def redo {α : Type} (st : HistoryState α) : HistoryState α :=
  match st.redoStack.getLast? with
  | none => st
  | some nextState =>
      { current := nextState
        undoStack := st.undoStack ++ [st.current]
        redoStack := st.redoStack.dropLast }

/-- Model of `canUndo` from useUndoRedo.ts. -/
def canUndo {α : Type} (st : HistoryState α) : Bool :=
  decide (0 < st.undoStack.length)

/-- Model of `canRedo` from useUndoRedo.ts. -/
def canRedo {α : Type} (st : HistoryState α) : Bool :=
  decide (0 < st.redoStack.length)

lemma undo_concat {α : Type} (cur : List α) (L : List (List α))
    (b : List α) (rs : List (List α)) :
    undo ⟨cur, L ++ [b], rs⟩ = ⟨b, L, rs ++ [cur]⟩ := by
  unfold undo
  rw [show (L ++ [b]).getLast? = some b from List.getLast?_concat L]
  rw [show (L ++ [b]).dropLast = L from List.dropLast_concat ..]

lemma redo_concat {α : Type} (cur : List α) (us : List (List α))
    (R : List (List α)) (b : List α) :
    redo ⟨cur, us, R ++ [b]⟩ = ⟨b, us ++ [cur], R⟩ := by
  unfold redo
  rw [show (R ++ [b]).getLast? = some b from List.getLast?_concat R]
  rw [show (R ++ [b]).dropLast = R from List.dropLast_concat ..]

/-- C9: the undo/redo round trip — whenever `canUndo` holds, `undo`
followed by `redo` restores the current lines array, the undo stack and
the redo stack exactly; symmetrically, whenever `canRedo` holds, `redo`
followed by `undo` restores the state before the redo. -/
theorem undo_redo_roundtrip {α : Type} (st : HistoryState α) :
    (canUndo st = true → redo (undo st) = st) ∧
    (canRedo st = true → undo (redo st) = st) := by
  obtain ⟨cur, us, rs⟩ := st
  constructor
  · intro hcan
    have hne : us ≠ [] := by
      simp only [canUndo, decide_eq_true_eq] at hcan
      exact List.ne_nil_of_length_pos hcan
    obtain ⟨L, b, rfl⟩ := (List.eq_nil_or_concat us).resolve_left hne
    rw [List.concat_eq_append, undo_concat, redo_concat]
  · intro hcan
    have hne : rs ≠ [] := by
      simp only [canRedo, decide_eq_true_eq] at hcan
      exact List.ne_nil_of_length_pos hcan
    obtain ⟨R, b, rfl⟩ := (List.eq_nil_or_concat rs).resolve_left hne
    rw [List.concat_eq_append, redo_concat, undo_concat]

/-- A concrete history state with both stacks non-empty. -/
def witnessHistory : HistoryState ℕ := ⟨[3], [[1], [2]], [[9]]⟩

/-- Witness for `undo_redo_roundtrip` on the concrete history state: both
stacks are non-empty and both round trips restore it. -/
theorem undo_redo_roundtrip_witness :
    canUndo witnessHistory = true ∧
    redo (undo witnessHistory) = witnessHistory ∧
    canRedo witnessHistory = true ∧
    undo (redo witnessHistory) = witnessHistory :=
  ⟨by decide, (undo_redo_roundtrip witnessHistory).1 (by decide),
    by decide, (undo_redo_roundtrip witnessHistory).2 (by decide)⟩

/-- A point of the drawing canvas, with real-valued (here rational)
coordinates as produced by the pointer events. -/
structure Point where
  x : ℚ
  y : ℚ
deriving DecidableEq

/-- The drawing tool of a stroke. -/
inductive Tool where
  | brush
  | eraser
deriving DecidableEq

/-- A drawing line as held by the canvas state: tool, rasterized stroke
points and stroke width. -/
structure DrawingLine where
  tool : Tool
  points : List Point
  width : ℚ

/-- JavaScript `Math.round`: round half away from zero towards positive
infinity, i.e. `⌊x + 1/2⌋`. -/
def jsRound (q : ℚ) : ℤ := ⌊q + 1 / 2⌋

/-- Clamp a rounded coordinate into `[0, hi]`, exactly as
`Math.max(0, Math.min(hi, Math.round(v)))`. -/
def clampCoord (hi : ℤ) (v : ℚ) : ℤ := max 0 (min hi (jsRound v))

/-- The consecutive point pairs of a stroke (indices `i`, `i+1`). -/
def segmentPairs (ps : List Point) : List (Point × Point) := ps.zip ps.tail

/-- All sampled pixels of one line: every consecutive segment passed
through the rasterizer with the line's stroke width.  The rasterizer
(`rasterizeLineSegment` in useStreamingEvaluation.ts, which samples a
circular brush along the segment using a real-valued square root) is kept
as a parameter: the claimed bounds and uniqueness hold for every
rasterizer output. -/
def strokePixels (rasterize : Point → Point → ℚ → List Point)
    (line : DrawingLine) : List Point :=
  (segmentPairs line.points).flatMap (fun sp => rasterize sp.1 sp.2 line.width)

/-- Clamp one sampled pixel to the canvas bounds and convert it to the
`[y, x]` row-column tuple sent to the evaluator. -/
def clampPixel (canvasWidth canvasHeight : ℤ) (p : Point) : ℤ × ℤ :=
  (clampCoord (canvasHeight - 1) p.y, clampCoord (canvasWidth - 1) p.x)

/-- First-occurrence deduplication, as performed by the `pixelSet` string
set of useStreamingEvaluation.ts: keep each `[y, x]` tuple the first time
it is seen. -/
def dedupFirst (l : List (ℤ × ℤ)) : List (ℤ × ℤ) :=
  l.foldl (fun acc p => if p ∈ acc then acc else acc ++ [p]) []

/-- Model of `extractPixelCoordinates` from useStreamingEvaluation.ts: skip eraser
strokes, rasterize every consecutive segment of the remaining lines, clamp
each sampled pixel to the canvas bounds, and emit each distinct `[y, x]`
tuple once, in first-seen order. -/
def extractPixelCoordinates (rasterize : Point → Point → ℚ → List Point)
    (lines : List DrawingLine) (canvasWidth canvasHeight : ℤ) :
    List (ℤ × ℤ) :=
  dedupFirst (((lines.filter (fun l => decide (l.tool ≠ Tool.eraser))).flatMap
    (strokePixels rasterize)).map (clampPixel canvasWidth canvasHeight))

lemma dedupFirst_nodup_aux (l : List (ℤ × ℤ)) :
    ∀ acc : List (ℤ × ℤ), acc.Nodup →
      (l.foldl (fun acc p => if p ∈ acc then acc else acc ++ [p]) acc).Nodup := by
  induction l with
  | nil => intro acc hacc; exact hacc
  | cons x xs ih =>
      intro acc hacc
      by_cases hx : x ∈ acc
      · simpa [hx] using ih acc hacc
      · have hconc : (acc ++ [x]).Nodup := by
          simp [List.nodup_append, hacc, List.disjoint_singleton, hx]
        simpa [hx] using ih (acc ++ [x]) hconc

lemma dedupFirst_nodup (l : List (ℤ × ℤ)) : (dedupFirst l).Nodup :=
  dedupFirst_nodup_aux l [] List.nodup_nil

lemma dedupFirst_mem_aux (l : List (ℤ × ℤ)) :
    ∀ (acc : List (ℤ × ℤ)) (p : ℤ × ℤ),
      p ∈ l.foldl (fun acc q => if q ∈ acc then acc else acc ++ [q]) acc →
      p ∈ acc ∨ p ∈ l := by
  induction l with
  | nil => intro acc p hp; exact Or.inl hp
  | cons x xs ih =>
      intro acc p hp
      by_cases hx : x ∈ acc
      · rw [List.foldl_cons, if_pos hx] at hp
        rcases ih acc p hp with h | h
        · exact Or.inl h
        · exact Or.inr (List.mem_cons_of_mem x h)
      · rw [List.foldl_cons, if_neg hx] at hp
        rcases ih (acc ++ [x]) p hp with h | h
        · rcases List.mem_append.1 h with h' | h'
          · exact Or.inl h'
          · exact Or.inr (by simpa using Or.inl (List.mem_singleton.1 h'))
        · exact Or.inr (List.mem_cons_of_mem x h)

lemma dedupFirst_subset {l : List (ℤ × ℤ)} {p : ℤ × ℤ}
    (hp : p ∈ dedupFirst l) : p ∈ l := by
  rcases dedupFirst_mem_aux l [] p hp with h | h
  · cases h
  · exact h

lemma clampCoord_bounds (hi : ℤ) (hhi : 0 ≤ hi) (v : ℚ) :
    0 ≤ clampCoord hi v ∧ clampCoord hi v ≤ hi :=
  ⟨le_max_left 0 _, max_le hhi (min_le_left hi _)⟩

/-- C10: every coordinate pair returned by `extractPixelCoordinates` lies
within the canvas bounds after clamping (`0 ≤ x ≤ canvasWidth - 1` and
`0 ≤ y ≤ canvasHeight - 1`), and the returned list contains no duplicate
`(y, x)` pair, for every input list of drawing lines and every
rasterizer. -/
theorem extract_bounds_nodup (rasterize : Point → Point → ℚ → List Point)
    (lines : List DrawingLine) (canvasWidth canvasHeight : ℤ)
    (hw : 1 ≤ canvasWidth) (hh : 1 ≤ canvasHeight) :
    (∀ p ∈ extractPixelCoordinates rasterize lines canvasWidth canvasHeight,
      0 ≤ p.2 ∧ p.2 ≤ canvasWidth - 1 ∧ 0 ≤ p.1 ∧ p.1 ≤ canvasHeight - 1) ∧
    (extractPixelCoordinates rasterize lines canvasWidth canvasHeight).Nodup := by
  constructor
  · intro p hp
    have hmem := dedupFirst_subset hp
    obtain ⟨q, _, rfl⟩ := List.mem_map.1 hmem
    obtain ⟨hx0, hx1⟩ := clampCoord_bounds (canvasWidth - 1) (by omega) q.x
    obtain ⟨hy0, hy1⟩ := clampCoord_bounds (canvasHeight - 1) (by omega) q.y
    exact ⟨hx0, hx1, hy0, hy1⟩
  · exact dedupFirst_nodup _

/-- A rasterizer stub returning the segment endpoints themselves. -/
def witnessRasterize : Point → Point → ℚ → List Point :=
  fun s e _ => [s, e]

/-- A concrete single brush stroke. -/
def witnessLines : List DrawingLine :=
  [⟨Tool.brush, [⟨0, 0⟩, ⟨3, 5⟩], 2⟩]

/-- Witness for `extract_bounds_nodup` on a concrete stroke and a 2×2
canvas. -/
theorem extract_bounds_nodup_witness :
    ((1 : ℤ) ≤ 2 ∧ (1 : ℤ) ≤ 2) ∧
    ((∀ p ∈ extractPixelCoordinates witnessRasterize witnessLines 2 2,
        0 ≤ p.2 ∧ p.2 ≤ 2 - 1 ∧ 0 ≤ p.1 ∧ p.1 ≤ 2 - 1) ∧
      (extractPixelCoordinates witnessRasterize witnessLines 2 2).Nodup) :=
  ⟨⟨by decide, by decide⟩,
    extract_bounds_nodup witnessRasterize witnessLines 2 2 (by decide)
      (by decide)⟩

end VisualArt
